import Mathlib

/-!
Verification of the Name / NameComponent layer of the go-ndn2 library
(`name.go`), over a shallow embedding in Lean.

Bytes are modelled as `Nat` (well-formed values carry entries `< 256`);
machine integers (`uint16`, `uint32`, `uint64`, `int`) are modelled as
`Nat`/`Int` with explicit truncation where Go overflow semantics matter.
Go's `(value, err)` returns become `Except Err`; runtime panics of the
Go code (slice index out of range) are a distinct `crash` outcome.

The `tlv` package (the `Block` container) is not part of the sources at
hand: only its callers and its error list are.  Its contract is therefore
modelled from the spec (see the doc comments marked "Modelled from the
spec").  Everything in the `ndn` namespace is translated directly from
`name.go`.
-/

namespace GoNDN

/-- Error kinds of the `util` and `tlv` error lists (`util/errors.go` and
the tlv error file): merged into one inductive since `name.go` draws from
both. -/
inductive Err where
  | NonExistent
  | BufferTooShort
  | MissingLength
  | OutOfRange
  | TooLong
  | TooShort
  | Unrecognized
  deriving DecidableEq, Repr

/-- Outcome of a Go computation that may return an error or panic at
runtime: `ok` models a nil-error return, `error` a non-nil error return,
`crash` a Go panic (e.g. a slice bounds violation). -/
inductive DecRes (α : Type) where
  | ok : α → DecRes α
  | error : Err → DecRes α
  | crash : DecRes α
  deriving DecidableEq, Repr

/-- Lift a fallible (but non-panicking) result into `DecRes`. -/
def DecRes.ofExcept : Except Err α → DecRes α
  | .ok a => .ok a
  | .error e => .error e

instance {ε α : Type} [DecidableEq ε] [DecidableEq α] :
    DecidableEq (Except ε α) := fun x y =>
  match x, y with
  | .ok a, .ok b =>
    if h : a = b then isTrue (by rw [h])
    else isFalse fun hh => h (Except.ok.inj hh)
  | .ok _, .error _ => isFalse fun hh => Except.noConfusion hh
  | .error _, .ok _ => isFalse fun hh => Except.noConfusion hh
  | .error a, .error b =>
    if h : a = b then isTrue (by rw [h])
    else isFalse fun hh => h (Except.error.inj hh)

namespace Tlv

/-- TLV type code for Name blocks (pinned by the tests: `0x07`). -/
def Name : Nat := 0x07
/-- TLV type code for ImplicitSha256DigestComponent. -/
def ImplicitSha256DigestComponent : Nat := 0x01
/-- TLV type code for ParametersSha256DigestComponent. -/
def ParametersSha256DigestComponent : Nat := 0x02
/-- TLV type code for GenericNameComponent (pinned by the tests: `0x08`). -/
def GenericNameComponent : Nat := 0x08
/-- TLV type code for KeywordNameComponent. -/
def KeywordNameComponent : Nat := 0x20
/-- TLV type code for SegmentNameComponent (pinned by the tests: `0x21`). -/
def SegmentNameComponent : Nat := 0x21
/-- TLV type code for ByteOffsetNameComponent. -/
def ByteOffsetNameComponent : Nat := 0x22
/-- TLV type code for VersionNameComponent. -/
def VersionNameComponent : Nat := 0x23
/-- TLV type code for TimestampNameComponent. -/
def TimestampNameComponent : Nat := 0x24
/-- TLV type code for SequenceNumNameComponent. -/
def SequenceNumNameComponent : Nat := 0x25

/-- Modelled from the spec: a TLV block is "a binary container with a type
code, a byte-string value"; the subelement list and the lazily cached wire
buffer are derived from these two fields by the operations below.  This is
the missing `tlv.Block` of the repository, reduced to its observable
content. -/
structure Block where
  typ : Nat
  value : List Nat
  deriving DecidableEq, Repr

/-- Big-endian base-256 value of a byte list. -/
def beVal (v : List Nat) : Nat := v.foldl (fun a b => a * 256 + b) 0

/-- The 8-byte big-endian encoding of `x % 2^64`
(Go `binary.BigEndian.PutUint64`). -/
def putUint64 (x : Nat) : List Nat :=
  let y := x % 2 ^ 64
  [y / 2 ^ 56 % 256, y / 2 ^ 48 % 256, y / 2 ^ 40 % 256, y / 2 ^ 32 % 256,
   y / 2 ^ 24 % 256, y / 2 ^ 16 % 256, y / 2 ^ 8 % 256, y % 256]

/-- Go `binary.BigEndian.Uint64`: reads the first 8 bytes of `v` as a
big-endian unsigned integer; panics (here `none`) when `v` holds fewer
than 8 bytes, and silently ignores bytes past the first 8. -/
def uint64BE (v : List Nat) : Option Nat :=
  if v.length < 8 then none else some (beVal (v.take 8))

/-- Modelled from the spec: the NDN variable-size number used by the TLV
framing for type codes and lengths ("a numeric type tag, an explicit byte
length", big-endian).  Numbers below 253 take one byte; larger ones use a
marker byte followed by a 2-, 4- or 8-byte big-endian payload. -/
def encodeVarNum (n : Nat) : List Nat :=
  if n < 253 then [n]
  else if n < 2 ^ 16 then [253, n / 256 % 256, n % 256]
  else if n < 2 ^ 32 then
    [254, n / 2 ^ 24 % 256, n / 2 ^ 16 % 256, n / 2 ^ 8 % 256, n % 256]
  else 255 :: putUint64 n

/-- Modelled from the spec: reading one variable-size number from the
head of a byte list; `none` when the buffer ends inside the number. -/
def readVarNum : List Nat → Option (Nat × List Nat)
  | [] => none
  | x :: rest =>
    if x < 253 then some (x, rest)
    else if x = 253 then
      match rest with
      | a :: b :: r => some (a * 256 + b, r)
      | _ => none
    else if x = 254 then
      match rest with
      | a :: b :: c :: d :: r => some (beVal [a, b, c, d], r)
      | _ => none
    else
      match rest with
      | a :: b :: c :: d :: e :: f :: g :: h :: r =>
        some (beVal [a, b, c, d, e, f, g, h], r)
      | _ => none

/-- Modelled from the spec: the materialized wire bytes of a block — its
type code, then the byte count of its value, then the value bytes
("encode of a type+value back into bytes").  `Block.Wire()` on a block
built from explicit value bytes always succeeds and yields these bytes. -/
def Block.wireBytes (b : Block) : List Nat :=
  encodeVarNum b.typ ++ encodeVarNum b.value.length ++ b.value

/-- Modelled from the spec: parsing a byte buffer into consecutive
type+value subelements ("decode of a buffer into a type+value+subelement
list").  A truncated number at the length position is `MissingLength`; a
declared length that exceeds the remaining buffer is `BufferTooShort`.
The first argument is fuel; `Block.Parse` supplies enough for any input. -/
def parseBlocksF (fuel : Nat) (bytes : List Nat) : Except Err (List Block) :=
  if bytes.isEmpty then .ok []
  else
    match fuel with
    | 0 => .error .BufferTooShort
    | f + 1 =>
      match readVarNum bytes with
      | none => .error .BufferTooShort
      | some (t, r1) =>
        match readVarNum r1 with
        | none => .error .MissingLength
        | some (len, r2) =>
          if len ≤ r2.length then
            match parseBlocksF f (r2.drop len) with
            | .ok bs => .ok (⟨t, r2.take len⟩ :: bs)
            | .error e => .error e
          else .error .BufferTooShort

/-- Modelled from the spec: `Block.Parse()` splits the block's value into
its subelement blocks, in wire order. -/
def Block.Parse (b : Block) : Except Err (List Block) :=
  parseBlocksF (b.value.length + 1) b.value

end Tlv

/-- An NDN name component.  In `name.go` every variant (base, digests,
generic, keyword, and the five numeric kinds) stores exactly the fields of
`BaseNameComponent` that `Name` observes: a `uint16` type code and a value
byte buffer.  `Equals`, `PrefixOf` and `Wire()` read only these two
fields (the numeric wrappers inherit `BaseNameComponent.Wire`), so the
component is embedded as this pair; the per-variant constructors below
carry each variant's validation. -/
structure NameComponent where
  typ : Nat
  value : List Nat
  deriving DecidableEq, Repr

/-- Go `NewBaseNameComponent`: a component of an arbitrary (16-bit) type;
an empty value is `ErrTooShort`. -/
def NewBaseNameComponent (tlvType : Nat) (value : List Nat) :
    Except Err NameComponent :=
  if value = [] then .error .TooShort else .ok ⟨tlvType, value⟩

/-- Go `NewImplicitSha256DigestComponent`: requires exactly 32 value bytes;
any other length — shorter or longer — returns `util.ErrTooShort`. -/
def NewImplicitSha256DigestComponent (value : List Nat) :
    Except Err NameComponent :=
  if value.length ≠ 32 then .error .TooShort
  else .ok ⟨Tlv.ImplicitSha256DigestComponent, value⟩

/-- Go `NewParametersSha256DigestComponent`: requires exactly 32 value bytes;
any other length returns `util.ErrTooShort`. -/
def NewParametersSha256DigestComponent (value : List Nat) :
    Except Err NameComponent :=
  if value.length ≠ 32 then .error .TooShort
  else .ok ⟨Tlv.ParametersSha256DigestComponent, value⟩

/-- Go `NewGenericNameComponent`: nonempty value required. -/
def NewGenericNameComponent (value : List Nat) : Except Err NameComponent :=
  if value = [] then .error .TooShort
  else .ok ⟨Tlv.GenericNameComponent, value⟩

/-- Go `NewKeywordNameComponent`: nonempty value required. -/
def NewKeywordNameComponent (value : List Nat) : Except Err NameComponent :=
  if value = [] then .error .TooShort
  else .ok ⟨Tlv.KeywordNameComponent, value⟩

/-- Go `NewSegmentNameComponent`: stores the 64-bit value big-endian in 8
bytes; never fails. -/
def NewSegmentNameComponent (value : Nat) : Except Err NameComponent :=
  .ok ⟨Tlv.SegmentNameComponent, Tlv.putUint64 value⟩

/-- Go `NewByteOffsetNameComponent`: stores the 64-bit value big-endian in 8
bytes; never fails. -/
def NewByteOffsetNameComponent (value : Nat) : Except Err NameComponent :=
  .ok ⟨Tlv.ByteOffsetNameComponent, Tlv.putUint64 value⟩

/-- Go `NewVersionNameComponent`: stores the 64-bit value big-endian in 8
bytes; never fails. -/
def NewVersionNameComponent (value : Nat) : Except Err NameComponent :=
  .ok ⟨Tlv.VersionNameComponent, Tlv.putUint64 value⟩

/-- Go `NewTimestampNameComponent`: stores the 64-bit value big-endian in 8
bytes; never fails. -/
def NewTimestampNameComponent (value : Nat) : Except Err NameComponent :=
  .ok ⟨Tlv.TimestampNameComponent, Tlv.putUint64 value⟩

/-- Go `NewSequenceNumNameComponent`: stores the 64-bit value big-endian in 8
bytes; never fails. -/
def NewSequenceNumNameComponent (value : Nat) : Except Err NameComponent :=
  .ok ⟨Tlv.SequenceNumNameComponent, Tlv.putUint64 value⟩

/-- Go `DecodeNameComponent`: decodes one component from a block, dispatching
on the block's type code exactly as the `switch` in `name.go`.  The nil
argument is `none`; an empty value is `tlv.ErrBufferTooShort`.  For the
five numeric types the code calls `binary.BigEndian.Uint64` on the raw
value, which panics (`crash`) when the value holds fewer than 8 bytes and
reads only the first 8 bytes when it holds more. -/
def DecodeNameComponent (w : Option Tlv.Block) : DecRes NameComponent :=
  match w with
  | none => .error .NonExistent
  | some wire =>
    if wire.value.length = 0 then .error .BufferTooShort
    else if wire.typ = Tlv.ImplicitSha256DigestComponent then
      .ofExcept (NewImplicitSha256DigestComponent wire.value)
    else if wire.typ = Tlv.ParametersSha256DigestComponent then
      .ofExcept (NewParametersSha256DigestComponent wire.value)
    else if wire.typ = Tlv.GenericNameComponent then
      .ofExcept (NewGenericNameComponent wire.value)
    else if wire.typ = Tlv.KeywordNameComponent then
      .ofExcept (NewKeywordNameComponent wire.value)
    else if wire.typ = Tlv.SegmentNameComponent then
      match Tlv.uint64BE wire.value with
      | none => .crash
      | some x => .ofExcept (NewSegmentNameComponent x)
    else if wire.typ = Tlv.ByteOffsetNameComponent then
      match Tlv.uint64BE wire.value with
      | none => .crash
      | some x => .ofExcept (NewByteOffsetNameComponent x)
    else if wire.typ = Tlv.VersionNameComponent then
      match Tlv.uint64BE wire.value with
      | none => .crash
      | some x => .ofExcept (NewVersionNameComponent x)
    else if wire.typ = Tlv.TimestampNameComponent then
      match Tlv.uint64BE wire.value with
      | none => .crash
      | some x => .ofExcept (NewTimestampNameComponent x)
    else if wire.typ = Tlv.SequenceNumNameComponent then
      match Tlv.uint64BE wire.value with
      | none => .crash
      | some x => .ofExcept (NewSequenceNumNameComponent x)
    else if wire.typ > 65535 then .error .OutOfRange
    else .ofExcept (NewBaseNameComponent wire.typ wire.value)

/-- The wire block of a component (`BaseNameComponent.Wire`, inherited by
every variant): its type code over its stored value bytes. -/
def NameComponent.wireBlock (c : NameComponent) : Tlv.Block :=
  ⟨c.typ, c.value⟩

/-- An NDN name: an ordered component sequence plus the lazily cached
wire block (`Name.wire` in `name.go`).  `none` models a reset cache
(`tlv.Block` with no materialized wire); `some b` models a cache holding
block `b` with its wire materialized. -/
structure Name where
  components : List NameComponent
  wire : Option Tlv.Block
  deriving DecidableEq, Repr

/-- Go `NewName`: an empty name with no wire. -/
def NewName : Name := ⟨[], none⟩

/-- Go `Name.Size`: the number of components. -/
def Name.Size (n : Name) : Nat := n.components.length

/-- Go `Name.Append`: nil component is `ErrNonExistent`; otherwise a deep
copy of the component goes on the end and the wire cache is reset. -/
def Name.Append (n : Name) (component : Option NameComponent) :
    Except Err Name :=
  match component with
  | none => .error .NonExistent
  | some c => .ok ⟨n.components ++ [c], none⟩

/-- Go `Name.At`: the component at the index, or nil (`none`) when the index
is outside `[0, size)`. -/
def Name.At (n : Name) (index : Int) : Option NameComponent :=
  if index < 0 ∨ (n.components.length : Int) ≤ index then none
  else n.components.get? index.toNat

/-- Go `Name.Clear`: erases all components and resets the wire cache, but
only when the name is nonempty — an already-empty name is left untouched,
its wire cache included. -/
def Name.Clear (n : Name) : Name :=
  if n.components.length > 0 then ⟨[], none⟩ else n

/-- Go `Name.DeepCopy`: a new name holding deep copies of the components;
the wire cache of the fresh `Name` is empty regardless of the source's. -/
def Name.DeepCopy (n : Name) : Name := ⟨n.components, none⟩

/-- The per-position test of the loops in `Name.Equals` and
`Name.PrefixOf`: type codes equal and value bytes equal. -/
def componentMatches (c d : NameComponent) : Bool :=
  c.typ == d.typ && c.value == d.value

/-- Go `Name.Equals`: equal sizes and, position by position, equal type code
and value bytes (the loop over `[0, size)` is rendered as a zip). -/
def Name.Equals (n other : Name) : Bool :=
  n.Size == other.Size &&
    (n.components.zip other.components).all fun p => componentMatches p.1 p.2

/-- Go `Name.Erase`: removes the component at the index, shifting later ones
down, and resets the wire cache; out-of-range indices are a no-op. -/
def Name.Erase (n : Name) (index : Int) : Name :=
  if index < 0 ∨ (n.components.length : Int) ≤ index then n
  else ⟨n.components.eraseIdx index.toNat, none⟩

/-- Go `Name.HasWire`: whether the cached wire block is materialized. -/
def Name.HasWire (n : Name) : Bool := n.wire.isSome

/-- Go `Name.Prefix` (renamed `PrefixOp` here): copies the first `size`
components into a fresh name with an empty wire cache.  The loop runs
`i = 0 .. size-1` over `n.components[i]`, so a negative or zero `size`
yields an empty name, while `size` beyond the component count hits an
out-of-range slice index and panics (`none`) — despite the doc comment's
promise to return a copy of the full name. -/
def Name.PrefixOp (n : Name) (size : Int) : Option Name :=
  if size ≤ (n.components.length : Int) then
    some ⟨n.components.take size.toNat, none⟩
  else none

/-- Go `Name.PrefixOf`: nil (`none`) or a larger size means not a prefix;
otherwise every component must match the one at the same position. -/
def Name.PrefixOf (n : Name) (other : Option Name) : Bool :=
  match other with
  | none => false
  | some m =>
    decide (n.Size ≤ m.Size) &&
      (n.components.zip m.components).all fun p => componentMatches p.1 p.2

/-- Go `Name.Set`: out-of-range index is `ErrOutOfRange`; otherwise the slot
is replaced by a deep copy of the component and the wire cache reset. -/
def Name.Set (n : Name) (index : Int) (component : NameComponent) :
    Except Err Name :=
  if index < 0 ∨ (n.components.length : Int) ≤ index then .error .OutOfRange
  else .ok ⟨n.components.set index.toNat component, none⟩

/-- The value bytes of a name's rebuilt wire block: each component's wire
block encoded in order and concatenated (`Name.Wire` appends each
component block to the aggregate block before materializing it). -/
def Name.encodeBody (n : Name) : List Nat :=
  (n.components.map fun c => c.wireBlock.wireBytes).flatten

/-- Go `Name.Wire`: when the cache is materialized, returns a deep copy of
the cached block; otherwise rebuilds it as a Name-typed block over the
concatenated component encodings, caches it, and returns a deep copy.
The pair is (name after the call, returned block). -/
def Name.WireOp (n : Name) : Name × Tlv.Block :=
  match n.wire with
  | some b => (n, b)
  | none =>
    let b : Tlv.Block := ⟨Tlv.Name, n.encodeBody⟩
    (⟨n.components, some b⟩, b)

/-- The `for` loop of `DecodeName`: decodes each subelement block as a
component, stopping at (and returning) the first error or panic. -/
def decodeComponents : List Tlv.Block → DecRes (List NameComponent)
  | [] => .ok []
  | b :: rest =>
    match DecodeNameComponent (some b) with
    | .ok c =>
      match decodeComponents rest with
      | .ok cs => .ok (c :: cs)
      | .error e => .error e
      | .crash => .crash
    | .error e => .error e
    | .crash => .crash

/-- Go `DecodeName`: nil block is `ErrNonExistent`; a type code other than
the Name code is `tlv.ErrUnrecognized`; then the block's value is parsed
into subelements, each decoded as a component in wire order, the first
failure aborting the whole decode; on success the decoded name keeps a
deep copy of the input block as its materialized wire cache.
(`Block.Wire()` on the input cannot fail in this model, and a parse
failure aborts the decode, per the spec's contract for the external
`tlv.Block` collaborator.) -/
def DecodeName (b : Option Tlv.Block) : DecRes Name :=
  match b with
  | none => .error .NonExistent
  | some blk =>
    if blk.typ ≠ Tlv.Name then .error .Unrecognized
    else
      match blk.Parse with
      | .error e => .error e
      | .ok subs =>
        match decodeComponents subs with
        | .ok cs => .ok ⟨cs, some blk⟩
        | .error e => .error e
        | .crash => .crash

/-- Three-way comparison of two naturals as `-1 / 0 / 1`. -/
def cmpNat (x y : Nat) : Int :=
  if x < y then -1 else if y < x then 1 else 0

/-- Lexicographic three-way comparison of byte lists. -/
def cmpBytes : List Nat → List Nat → Int
  | [], [] => 0
  | [], _ :: _ => -1
  | _ :: _, [] => 1
  | a :: as, b :: bs =>
    if a < b then -1 else if b < a then 1 else cmpBytes as bs

/-- Modelled from the spec: the per-component step of the canonical
order used by `Name.Compare` — "first compare value length (shorter sorts
first), then compare value bytes lexicographically if lengths are equal,
using type code as an additional tie-break (lower type code sorts
first)". -/
def componentCompare (c d : NameComponent) : Int :=
  if c.value.length ≠ d.value.length then
    cmpNat c.value.length d.value.length
  else if cmpBytes c.value d.value ≠ 0 then cmpBytes c.value d.value
  else cmpNat c.typ d.typ

/-- Modelled from the spec: "compare components pairwise by position ...
a name that is a strict prefix of another sorts before it" — the first
non-tied position decides; when one list runs out first, it is the
smaller. -/
def compareComponentLists : List NameComponent → List NameComponent → Int
  | [], [] => 0
  | [], _ :: _ => -1
  | _ :: _, [] => 1
  | c :: cs, d :: ds =>
    if componentCompare c d ≠ 0 then componentCompare c d
    else compareComponentLists cs ds

/-- Modelled from the spec: `Name.Compare` is exercised by
`TestNameCompare` but its implementation is not among the sources at
hand; this follows the spec's description of the canonical NDN total
order over the component sequences. -/
def Name.Compare (n other : Name) : Int :=
  compareComponentLists n.components other.components

/-- The five fixed-width numeric component type codes. -/
def numericType (t : Nat) : Bool :=
  t == Tlv.SegmentNameComponent || t == Tlv.ByteOffsetNameComponent ||
  t == Tlv.VersionNameComponent || t == Tlv.TimestampNameComponent ||
  t == Tlv.SequenceNumNameComponent

/-- A component the API can build and the wire codec round-trips: 16-bit
type code, nonempty byte (`< 256`) value whose length fits the 64-bit TLV
length field, digest values exactly 32 bytes, numeric values exactly 8
bytes. -/
def componentValid (c : NameComponent) : Prop :=
  c.typ ≤ 65535 ∧ c.value ≠ [] ∧ (∀ x ∈ c.value, x < 256) ∧
  c.value.length < 2 ^ 64 ∧
  ((c.typ = Tlv.ImplicitSha256DigestComponent ∨
    c.typ = Tlv.ParametersSha256DigestComponent) → c.value.length = 32) ∧
  (numericType c.typ = true → c.value.length = 8)

instance (c : NameComponent) : Decidable (componentValid c) := by
  unfold componentValid
  infer_instance

/-- The reachable-cache invariant of a `Name`: a materialized wire block,
when present, is Name-typed and decodes back to exactly the name's own
component sequence (true of every cache the API ever installs: rebuilt
caches by construction, decoded caches because the components came from
that very block). -/
def wireCoherent (n : Name) : Bool :=
  match n.wire with
  | none => true
  | some b =>
    b.typ == Tlv.Name &&
      match b.Parse with
      | .ok subs => decodeComponents subs == .ok n.components
      | .error _ => false

/-- A valid name: well-formed components and a coherent wire cache. -/
def ValidName (n : Name) : Prop :=
  (∀ c ∈ n.components, componentValid c) ∧ wireCoherent n = true

instance (n : Name) : Decidable (ValidName n) := by
  unfold ValidName
  infer_instance

/-! ### Helper lemmas: the component matching test and name equality -/

theorem componentMatches_iff {c d : NameComponent} :
    componentMatches c d = true ↔ c = d := by
  cases c with
  | mk ct cv =>
    cases d with
    | mk dt dv =>
      simp [componentMatches]

theorem componentMatches_refl (c : NameComponent) :
    componentMatches c c = true := by
  simp [componentMatches_iff]

theorem zip_all_matches_iff :
    ∀ xs ys : List NameComponent, xs.length = ys.length →
      (((xs.zip ys).all fun p => componentMatches p.1 p.2) = true ↔ xs = ys)
  | [], [], _ => by simp
  | [], _ :: _, h => by simp at h
  | _ :: _, [], h => by simp at h
  | x :: xs, y :: ys, h => by
    simp only [List.zip_cons_cons, List.all_cons, Bool.and_eq_true,
      List.cons.injEq]
    rw [componentMatches_iff, zip_all_matches_iff xs ys (by simpa using h)]

theorem Equals_iff {a b : Name} :
    Name.Equals a b = true ↔ a.components = b.components := by
  unfold Name.Equals Name.Size
  constructor
  · intro h
    simp only [Bool.and_eq_true, beq_iff_eq] at h
    exact (zip_all_matches_iff _ _ h.1).mp h.2
  · intro h
    rw [h]
    simp only [Bool.and_eq_true]
    constructor
    · simp
    · exact (zip_all_matches_iff _ _ rfl).mpr rfl

theorem Equals_refl (a : Name) : Name.Equals a a = true :=
  Equals_iff.mpr rfl

/-- Unfolding of `PrefixOf` on a present argument: size bound plus
pairwise matching over the zipped components. -/
theorem PrefixOf_some_iff {a b : Name} :
    Name.PrefixOf a (some b) = true ↔
      a.components.length ≤ b.components.length ∧
        ((a.components.zip b.components).all
          fun p => componentMatches p.1 p.2) = true := by
  unfold Name.PrefixOf Name.Size
  simp

/-! ### Helper lemmas: the three-way comparisons -/

theorem cmpNat_neg (x y : Nat) : cmpNat x y = -cmpNat y x := by
  unfold cmpNat
  rcases Nat.lt_trichotomy x y with h | h | h
  · rw [if_pos h, if_neg (by omega), if_pos h]
  · subst h
    rw [if_neg (show ¬x < x by omega), if_neg (show ¬x < x by omega)]
    decide
  · rw [if_neg (by omega), if_pos h, if_pos h]
    decide

theorem cmpNat_eq_zero_iff {x y : Nat} : cmpNat x y = 0 ↔ x = y := by
  unfold cmpNat
  split_ifs with h1 h2
  · exact iff_of_false (by decide) (by omega)
  · exact iff_of_false (by decide) (by omega)
  · exact iff_of_true rfl (by omega)

theorem cmpBytes_neg : ∀ v w : List Nat, cmpBytes v w = -cmpBytes w v
  | [], [] => by decide
  | [], _ :: _ => by
    show (-1 : Int) = -(1 : Int)
    decide
  | _ :: _, [] => by
    show (1 : Int) = -(-1 : Int)
    decide
  | a :: as, b :: bs => by
    unfold cmpBytes
    rcases Nat.lt_trichotomy a b with h | h | h
    · rw [if_pos h, if_neg (by omega), if_pos h]
    · subst h
      rw [if_neg (by omega), if_neg (by omega), if_neg (by omega),
        if_neg (by omega), cmpBytes_neg as bs]
    · rw [if_neg (by omega), if_pos h, if_pos h]
      decide

theorem cmpBytes_eq_zero_iff : ∀ v w : List Nat, cmpBytes v w = 0 ↔ v = w
  | [], [] => by simp [cmpBytes]
  | [], _ :: _ => by simp [cmpBytes]
  | _ :: _, [] => by simp [cmpBytes]
  | a :: as, b :: bs => by
    unfold cmpBytes
    split_ifs with h1 h2
    · exact iff_of_false (by decide) (by intro hh; cases hh; omega)
    · exact iff_of_false (by decide) (by intro hh; cases hh; omega)
    · have hab : a = b := by omega
      subst hab
      rw [cmpBytes_eq_zero_iff as bs]
      simp

theorem cmpBytes_mem : ∀ v w : List Nat,
    cmpBytes v w = -1 ∨ cmpBytes v w = 0 ∨ cmpBytes v w = 1
  | [], [] => by simp [cmpBytes]
  | [], _ :: _ => by simp [cmpBytes]
  | _ :: _, [] => by simp [cmpBytes]
  | a :: as, b :: bs => by
    unfold cmpBytes
    split_ifs <;> first | simp | exact cmpBytes_mem as bs

theorem componentCompare_neg (c d : NameComponent) :
    componentCompare c d = -componentCompare d c := by
  unfold componentCompare
  by_cases hlen : c.value.length = d.value.length
  · rw [if_neg (show ¬c.value.length ≠ d.value.length by omega),
      if_neg (show ¬d.value.length ≠ c.value.length by omega)]
    have hswap := cmpBytes_neg c.value d.value
    by_cases hz : cmpBytes d.value c.value = 0
    · rw [if_neg (show ¬cmpBytes c.value d.value ≠ 0 by
          rw [hswap, hz]; decide),
        if_neg (show ¬cmpBytes d.value c.value ≠ 0 by simp [hz]),
        cmpNat_neg]
    · rw [if_pos (show cmpBytes c.value d.value ≠ 0 by
          rw [hswap]; simpa using hz),
        if_pos (show cmpBytes d.value c.value ≠ 0 from hz)]
      exact hswap
  · rw [if_pos hlen, if_pos (show d.value.length ≠ c.value.length from
      fun hh => hlen hh.symm), cmpNat_neg]

theorem componentCompare_eq_zero_iff {c d : NameComponent} :
    componentCompare c d = 0 ↔ c = d := by
  unfold componentCompare
  split_ifs with h1 h2
  · rw [cmpNat_eq_zero_iff]
    constructor
    · intro h
      exact absurd h h1
    · intro h
      rw [h]
  · constructor
    · intro h
      exact absurd h h2
    · intro h
      rw [h] at h2
      simp [cmpBytes_eq_zero_iff] at h2
  · rw [cmpNat_eq_zero_iff]
    rw [not_not] at h2
    rw [cmpBytes_eq_zero_iff] at h2
    cases c with
    | mk ct cv =>
      cases d with
      | mk dt dv =>
        simp_all

theorem componentCompare_mem (c d : NameComponent) :
    componentCompare c d = -1 ∨ componentCompare c d = 0 ∨
      componentCompare c d = 1 := by
  unfold componentCompare cmpNat
  split_ifs <;> first | simp | exact cmpBytes_mem c.value d.value

theorem compareComponentLists_neg : ∀ xs ys : List NameComponent,
    compareComponentLists xs ys = -compareComponentLists ys xs
  | [], [] => by decide
  | [], _ :: _ => by
    show (-1 : Int) = -(1 : Int)
    decide
  | _ :: _, [] => by
    show (1 : Int) = -(-1 : Int)
    decide
  | x :: xs, y :: ys => by
    unfold compareComponentLists
    have hswap := componentCompare_neg x y
    by_cases hz : componentCompare y x = 0
    · rw [if_neg (by rw [hswap, hz]; decide), if_neg (by simp [hz]),
        compareComponentLists_neg xs ys]
    · rw [if_pos (by rw [hswap]; simpa using hz), if_pos hz, hswap]

theorem compareComponentLists_eq_zero_iff : ∀ xs ys : List NameComponent,
    compareComponentLists xs ys = 0 ↔ xs = ys
  | [], [] => by simp [compareComponentLists]
  | [], _ :: _ => by simp [compareComponentLists]
  | _ :: _, [] => by simp [compareComponentLists]
  | x :: xs, y :: ys => by
    unfold compareComponentLists
    split_ifs with h
    · constructor
      · intro h0
        exact absurd h0 h
      · intro h0
        simp only [List.cons.injEq] at h0
        rw [componentCompare_eq_zero_iff.mpr h0.1] at h
        omega
    · rw [not_not, componentCompare_eq_zero_iff] at h
      rw [compareComponentLists_eq_zero_iff xs ys]
      simp [h]

theorem compareComponentLists_mem : ∀ xs ys : List NameComponent,
    compareComponentLists xs ys = -1 ∨ compareComponentLists xs ys = 0 ∨
      compareComponentLists xs ys = 1
  | [], [] => by simp [compareComponentLists]
  | [], _ :: _ => by simp [compareComponentLists]
  | _ :: _, [] => by simp [compareComponentLists]
  | x :: xs, y :: ys => by
    unfold compareComponentLists
    split_ifs with h
    · exact componentCompare_mem x y
    · exact compareComponentLists_mem xs ys

theorem compareComponentLists_lt_of_front :
    ∀ xs ys : List NameComponent,
      ((xs.zip ys).all fun p => componentMatches p.1 p.2) = true →
      xs.length < ys.length →
      compareComponentLists xs ys = -1
  | [], [], _, hlen => by simp at hlen
  | [], _ :: _, _, _ => by rfl
  | _ :: _, [], _, hlen => by simp at hlen
  | x :: xs, y :: ys, hall, hlen => by
    simp only [List.zip_cons_cons, List.all_cons, Bool.and_eq_true] at hall
    unfold compareComponentLists
    rw [if_neg (by
      simp only [ne_eq, not_not]
      exact componentCompare_eq_zero_iff.mpr (componentMatches_iff.mp hall.1))]
    exact compareComponentLists_lt_of_front xs ys hall.2
      (by simpa using hlen)

/-! ### Helper lemmas: `decodeComponents` and `DecodeName` inversion -/

theorem decodeComponents_ok_pointwise :
    ∀ {subs : List Tlv.Block} {cs : List NameComponent},
      decodeComponents subs = .ok cs →
      cs.length = subs.length ∧
        ∀ i (h1 : i < subs.length) (h2 : i < cs.length),
          DecodeNameComponent (some (subs.get ⟨i, h1⟩)) =
            .ok (cs.get ⟨i, h2⟩)
  | [], cs, h => by
    unfold decodeComponents at h
    cases h
    exact ⟨rfl, fun i h1 _ => absurd h1 (by simp)⟩
  | b :: rest, cs, h => by
    unfold decodeComponents at h
    cases hb : DecodeNameComponent (some b) with
    | ok c =>
      rw [hb] at h
      cases hr : decodeComponents rest with
      | ok cs' =>
        rw [hr] at h
        cases h
        obtain ⟨hlen, hpt⟩ := decodeComponents_ok_pointwise hr
        refine ⟨by simp [hlen], fun i h1 h2 => ?_⟩
        cases i with
        | zero => exact hb
        | succ j => exact hpt j (by simpa using h1) (by simpa using h2)
      | error e =>
        rw [hr] at h
        exact DecRes.noConfusion h
      | crash =>
        rw [hr] at h
        exact DecRes.noConfusion h
    | error e =>
      rw [hb] at h
      exact DecRes.noConfusion h
    | crash =>
      rw [hb] at h
      exact DecRes.noConfusion h

theorem decodeComponents_append_error :
    ∀ {good : List Tlv.Block} {cs : List NameComponent}
      (bad : Tlv.Block) (rest : List Tlv.Block) {e : Err},
      decodeComponents good = .ok cs →
      DecodeNameComponent (some bad) = .error e →
      decodeComponents (good ++ bad :: rest) = .error e
  | [], cs, bad, rest, e, _, hbad => by
    simp only [List.nil_append]
    unfold decodeComponents
    rw [hbad]
  | g :: gs, cs, bad, rest, e, h, hbad => by
    unfold decodeComponents at h
    cases hg : DecodeNameComponent (some g) with
    | ok c =>
      rw [hg] at h
      cases hr : decodeComponents gs with
      | ok cs' =>
        have ih := decodeComponents_append_error bad rest hr hbad
        simp only [List.cons_append]
        unfold decodeComponents
        rw [hg, ih]
      | error e' =>
        rw [hr] at h
        exact DecRes.noConfusion h
      | crash =>
        rw [hr] at h
        exact DecRes.noConfusion h
    | error e' =>
      rw [hg] at h
      exact DecRes.noConfusion h
    | crash =>
      rw [hg] at h
      exact DecRes.noConfusion h

/-- Inversion of a successful `DecodeName`: the block was Name-typed, its
parse and the component decode succeeded, and the decoded name caches the
input block itself as its materialized wire. -/
theorem DecodeName_ok_inv {b : Tlv.Block} {m : Name}
    (h : DecodeName (some b) = .ok m) :
    m.wire = some b ∧ b.typ = Tlv.Name ∧
      ∃ subs, b.Parse = .ok subs ∧
        decodeComponents subs = .ok m.components := by
  simp only [DecodeName] at h
  split at h
  · exact DecRes.noConfusion h
  · rename_i htyp
    rw [not_not] at htyp
    split at h
    · exact DecRes.noConfusion h
    · rename_i subs hp
      split at h
      · rename_i cs hd
        cases h
        exact ⟨rfl, htyp, subs, hp, hd⟩
      · exact DecRes.noConfusion h
      · exact DecRes.noConfusion h

/-! ### Helper lemmas: the byte-level round trip -/

theorem encodeVarNum_ne_nil (n : Nat) : Tlv.encodeVarNum n ≠ [] := by
  unfold Tlv.encodeVarNum
  split_ifs <;> simp

theorem encodeVarNum_length_pos (n : Nat) :
    1 ≤ (Tlv.encodeVarNum n).length := by
  unfold Tlv.encodeVarNum
  split_ifs <;> simp [Tlv.putUint64]

theorem putUint64_beVal (a b c d e f g h : Nat)
    (ha : a < 256) (hb : b < 256) (hc : c < 256) (hd : d < 256)
    (he : e < 256) (hf : f < 256) (hg : g < 256) (hh : h < 256) :
    Tlv.putUint64 (Tlv.beVal [a, b, c, d, e, f, g, h]) =
      [a, b, c, d, e, f, g, h] := by
  have hv : Tlv.beVal [a, b, c, d, e, f, g, h] =
      ((((((a * 256 + b) * 256 + c) * 256 + d) * 256 + e) * 256 + f) *
        256 + g) * 256 + h := by
    simp [Tlv.beVal, List.foldl]
  simp only [Tlv.putUint64, hv]
  simp only [List.cons.injEq, and_true, eq_self_iff_true]
  omega

theorem putUint64_beVal_take {v : List Nat} (h8 : v.length = 8)
    (hbyte : ∀ x ∈ v, x < 256) :
    Tlv.putUint64 (Tlv.beVal (v.take 8)) = v := by
  have htake : v.take 8 = v := by
    rw [← h8, List.take_length]
  rw [htake]
  rcases v with _ | ⟨a, v⟩
  · simp at h8
  rcases v with _ | ⟨b, v⟩
  · simp at h8
  rcases v with _ | ⟨c, v⟩
  · simp at h8
  rcases v with _ | ⟨d, v⟩
  · simp at h8
  rcases v with _ | ⟨e, v⟩
  · simp at h8
  rcases v with _ | ⟨f, v⟩
  · simp at h8
  rcases v with _ | ⟨g, v⟩
  · simp at h8
  rcases v with _ | ⟨h, v⟩
  · simp at h8
  rcases v with _ | ⟨x, v⟩
  · exact putUint64_beVal a b c d e f g h
      (hbyte a (by simp)) (hbyte b (by simp)) (hbyte c (by simp))
      (hbyte d (by simp)) (hbyte e (by simp)) (hbyte f (by simp))
      (hbyte g (by simp)) (hbyte h (by simp))
  · simp at h8

theorem readVarNum_encodeVarNum (n : Nat) (h : n < 2 ^ 64)
    (rest : List Nat) :
    Tlv.readVarNum (Tlv.encodeVarNum n ++ rest) = some (n, rest) := by
  unfold Tlv.encodeVarNum
  split_ifs with h1 h2 h3
  · simp [Tlv.readVarNum, h1]
  · have hn : n / 256 % 256 * 256 + n % 256 = n := by omega
    simp [Tlv.readVarNum, hn]
  · simp [Tlv.readVarNum]
    simp [Tlv.beVal, List.foldl]
    omega
  · have hmod : n % 2 ^ 64 = n := Nat.mod_eq_of_lt h
    simp only [Tlv.putUint64, hmod]
    simp [Tlv.readVarNum]
    simp [Tlv.beVal, List.foldl]
    omega

/-- One step of the subelement parser on a nonempty buffer. -/
theorem parseBlocksF_succ (f : Nat) (bytes : List Nat)
    (hne : bytes ≠ []) :
    Tlv.parseBlocksF (f + 1) bytes =
      match Tlv.readVarNum bytes with
      | none => .error .BufferTooShort
      | some (t, r1) =>
        match Tlv.readVarNum r1 with
        | none => .error .MissingLength
        | some (len, r2) =>
          if len ≤ r2.length then
            match Tlv.parseBlocksF f (r2.drop len) with
            | .ok bs => .ok (⟨t, r2.take len⟩ :: bs)
            | .error e => .error e
          else .error .BufferTooShort := by
  rw [Tlv.parseBlocksF, if_neg (by simp [hne])]

/-- Parsing the concatenated component encodings of a valid component
list recovers exactly the component blocks, in order. -/
theorem parseBlocksF_flatten :
    ∀ (comps : List NameComponent) (fuel : Nat),
      (∀ c ∈ comps, componentValid c) →
      ((comps.map fun c => c.wireBlock.wireBytes).flatten).length < fuel →
      Tlv.parseBlocksF fuel
          ((comps.map fun c => c.wireBlock.wireBytes).flatten) =
        .ok (comps.map NameComponent.wireBlock)
  | [], _, _, _ => by
    rw [Tlv.parseBlocksF.eq_def]
    simp
  | c :: comps, fuel, hval, hfuel => by
    obtain ⟨hts, hne, hall, hlen, -, -⟩ := hval c (by simp)
    have hbytes : (((c :: comps).map fun x => x.wireBlock.wireBytes).flatten)
        = Tlv.encodeVarNum c.typ ++ (Tlv.encodeVarNum c.value.length ++
            (c.value ++ ((comps.map fun x => x.wireBlock.wireBytes).flatten))) := by
      simp [NameComponent.wireBlock, Tlv.Block.wireBytes]
    rw [hbytes] at hfuel ⊢
    cases fuel with
    | zero => exact absurd hfuel (Nat.not_lt_zero _)
    | succ f =>
      rw [parseBlocksF_succ f _ (by simp [encodeVarNum_ne_nil])]
      simp only [readVarNum_encodeVarNum c.typ (by omega),
        readVarNum_encodeVarNum c.value.length hlen]
      rw [if_pos (by simp)]
      rw [List.drop_left, List.take_left]
      have hrec : Tlv.parseBlocksF f
          ((comps.map fun x => x.wireBlock.wireBytes).flatten) =
          .ok (comps.map NameComponent.wireBlock) := by
        apply parseBlocksF_flatten comps f (fun x hx => hval x (by simp [hx]))
        have h1 := encodeVarNum_length_pos c.typ
        have h2 := encodeVarNum_length_pos c.value.length
        simp only [List.length_append] at hfuel
        omega
      rw [hrec]
      simp [NameComponent.wireBlock]

/-- Decoding a valid component's own wire block gives that component
back. -/
theorem decode_wireBlock {c : NameComponent} (h : componentValid c) :
    DecodeNameComponent (some c.wireBlock) = .ok c := by
  obtain ⟨hts, hne, hall, hlen, hdig, hnum⟩ := h
  simp only [DecodeNameComponent, NameComponent.wireBlock]
  rw [if_neg (by simp [hne])]
  by_cases h1 : c.typ = Tlv.ImplicitSha256DigestComponent
  · rw [if_pos h1]
    have h32 : c.value.length = 32 := hdig (Or.inl h1)
    simp only [NewImplicitSha256DigestComponent,
      if_neg (show ¬c.value.length ≠ 32 by omega), DecRes.ofExcept]
    rw [← h1]
  rw [if_neg h1]
  by_cases h2 : c.typ = Tlv.ParametersSha256DigestComponent
  · rw [if_pos h2]
    have h32 : c.value.length = 32 := hdig (Or.inr h2)
    simp only [NewParametersSha256DigestComponent,
      if_neg (show ¬c.value.length ≠ 32 by omega), DecRes.ofExcept]
    rw [← h2]
  rw [if_neg h2]
  by_cases h3 : c.typ = Tlv.GenericNameComponent
  · rw [if_pos h3]
    simp only [NewGenericNameComponent, if_neg hne, DecRes.ofExcept]
    rw [← h3]
  rw [if_neg h3]
  by_cases h4 : c.typ = Tlv.KeywordNameComponent
  · rw [if_pos h4]
    simp only [NewKeywordNameComponent, if_neg hne, DecRes.ofExcept]
    rw [← h4]
  rw [if_neg h4]
  by_cases h5 : c.typ = Tlv.SegmentNameComponent
  · rw [if_pos h5]
    have h8 : c.value.length = 8 := hnum (by rw [h5]; decide)
    simp only [Tlv.uint64BE, if_neg (show ¬c.value.length < 8 by omega),
      NewSegmentNameComponent, DecRes.ofExcept]
    rw [putUint64_beVal_take h8 hall, ← h5]
  rw [if_neg h5]
  by_cases h6 : c.typ = Tlv.ByteOffsetNameComponent
  · rw [if_pos h6]
    have h8 : c.value.length = 8 := hnum (by rw [h6]; decide)
    simp only [Tlv.uint64BE, if_neg (show ¬c.value.length < 8 by omega),
      NewByteOffsetNameComponent, DecRes.ofExcept]
    rw [putUint64_beVal_take h8 hall, ← h6]
  rw [if_neg h6]
  by_cases h7 : c.typ = Tlv.VersionNameComponent
  · rw [if_pos h7]
    have h8 : c.value.length = 8 := hnum (by rw [h7]; decide)
    simp only [Tlv.uint64BE, if_neg (show ¬c.value.length < 8 by omega),
      NewVersionNameComponent, DecRes.ofExcept]
    rw [putUint64_beVal_take h8 hall, ← h7]
  rw [if_neg h7]
  by_cases h8t : c.typ = Tlv.TimestampNameComponent
  · rw [if_pos h8t]
    have h8 : c.value.length = 8 := hnum (by rw [h8t]; decide)
    simp only [Tlv.uint64BE, if_neg (show ¬c.value.length < 8 by omega),
      NewTimestampNameComponent, DecRes.ofExcept]
    rw [putUint64_beVal_take h8 hall, ← h8t]
  rw [if_neg h8t]
  by_cases h9 : c.typ = Tlv.SequenceNumNameComponent
  · rw [if_pos h9]
    have h8 : c.value.length = 8 := hnum (by rw [h9]; decide)
    simp only [Tlv.uint64BE, if_neg (show ¬c.value.length < 8 by omega),
      NewSequenceNumNameComponent, DecRes.ofExcept]
    rw [putUint64_beVal_take h8 hall, ← h9]
  rw [if_neg h9]
  rw [if_neg (show ¬c.typ > 65535 by omega)]
  simp only [NewBaseNameComponent, if_neg hne, DecRes.ofExcept]

/-- The component loop of `DecodeName`, run over the wire blocks of a
valid component list, recovers exactly that list. -/
theorem decodeComponents_map_wireBlock :
    ∀ (comps : List NameComponent),
      (∀ c ∈ comps, componentValid c) →
      decodeComponents (comps.map NameComponent.wireBlock) = .ok comps
  | [], _ => rfl
  | c :: comps, hval => by
    simp only [List.map_cons]
    unfold decodeComponents
    rw [decode_wireBlock (hval c (by simp)),
      decodeComponents_map_wireBlock comps (fun x hx => hval x (by simp [hx]))]

/-- Unfolding of `DecodeName` once the type check and the parse are
settled: only the component loop remains. -/
theorem DecodeName_eq {b : Tlv.Block} (ht : b.typ = Tlv.Name)
    {subs : List Tlv.Block} (hp : b.Parse = .ok subs) :
    DecodeName (some b) =
      match decodeComponents subs with
      | .ok cs => .ok ⟨cs, some b⟩
      | .error e => .error e
      | .crash => .crash := by
  simp only [DecodeName]
  rw [if_neg (by simp [ht]), hp]

/-! ### Claim theorems -/

/-- C5: `DecodeName` is all-or-nothing.  A block whose type code is not
the Name code yields the `Unrecognized` error and no Name; once the block
parses into subelements, a failure on any subelement (the decoding of
everything before it having succeeded) makes the whole decode return that
subelement's error, never a partial Name; and on success the decoded
name's components are exactly the decoded subelements in wire order. -/
theorem c5_decode_all_or_nothing (b : Tlv.Block) :
    (b.typ ≠ Tlv.Name → DecodeName (some b) = .error .Unrecognized) ∧
    (∀ subs, b.typ = Tlv.Name → b.Parse = .ok subs →
      (∀ cs, decodeComponents subs = .ok cs →
        DecodeName (some b) = .ok ⟨cs, some b⟩ ∧
        cs.length = subs.length ∧
        ∀ i (h1 : i < subs.length) (h2 : i < cs.length),
          DecodeNameComponent (some (subs.get ⟨i, h1⟩)) =
            .ok (cs.get ⟨i, h2⟩)) ∧
      (∀ good bad rest cs e, subs = good ++ bad :: rest →
        decodeComponents good = .ok cs →
        DecodeNameComponent (some bad) = .error e →
        DecodeName (some b) = .error e)) := by
  constructor
  · intro ht
    simp only [DecodeName]
    rw [if_pos ht]
  · intro subs ht hp
    constructor
    · intro cs hc
      obtain ⟨hlen, hpt⟩ := decodeComponents_ok_pointwise hc
      refine ⟨?_, hlen, hpt⟩
      rw [DecodeName_eq ht hp, hc]
    · intro good bad rest cs e hsplit hgood hbad
      rw [DecodeName_eq ht hp, hsplit,
        decodeComponents_append_error bad rest hgood hbad]

/-- Witness for C5: a non-Name block is rejected as unrecognized, and a
Name block holding a one-byte digest component propagates that
component's `TooShort` error. -/
theorem c5_decode_all_or_nothing_witness :
    DecodeName (some (⟨8, [1]⟩ : Tlv.Block)) = .error .Unrecognized ∧
    DecodeName (some (⟨7, [1, 1, 255]⟩ : Tlv.Block)) =
      .error .TooShort := by
  constructor
  · exact (c5_decode_all_or_nothing ⟨8, [1]⟩).1 (by decide)
  · exact ((c5_decode_all_or_nothing ⟨7, [1, 1, 255]⟩).2 [⟨1, [255]⟩]
      (by decide) (by decide)).2 [] ⟨1, [255]⟩ [] [] .TooShort
      (by decide) (by decide) (by decide)

/-- C1: `Name.Compare` (modelled from the spec; the implementation is not
among the sources, only its test) returns only -1, 0 or 1, is
antisymmetric (`a.Compare b = -(b.Compare a)`), is zero exactly when
`Equals` holds, and ranks a strict prefix below its extension; the
pairwise component order it applies is the spec's
length-then-bytes-then-type-code comparison, which `componentCompare`
embeds. -/
theorem c1_compare_canonical_total_order (a b : Name) :
    (Name.Compare a b = -1 ∨ Name.Compare a b = 0 ∨ Name.Compare a b = 1) ∧
    Name.Compare a b = -Name.Compare b a ∧
    (Name.Compare a b = 0 ↔ Name.Equals a b = true) ∧
    (Name.PrefixOf a (some b) = true → a.Size < b.Size →
      Name.Compare a b = -1) := by
  refine ⟨compareComponentLists_mem _ _, compareComponentLists_neg _ _,
    ?_, ?_⟩
  · rw [Name.Compare, compareComponentLists_eq_zero_iff, Equals_iff]
  · intro hpre hsz
    obtain ⟨hle, hall⟩ := PrefixOf_some_iff.mp hpre
    exact compareComponentLists_lt_of_front _ _ hall hsz

/-- Witness for C1: `/go` sorts strictly before `/go/ndn`. -/
theorem c1_compare_witness :
    Name.Compare ⟨[⟨8, [103, 111]⟩], none⟩
      ⟨[⟨8, [103, 111]⟩, ⟨8, [110, 100, 110]⟩], none⟩ = -1 := by
  have h := c1_compare_canonical_total_order ⟨[⟨8, [103, 111]⟩], none⟩
    ⟨[⟨8, [103, 111]⟩, ⟨8, [110, 100, 110]⟩], none⟩
  exact h.2.2.2 (by decide) (by decide)

/-- C2: the encode/decode round trip.  For every valid Name (well-formed
components, coherent wire cache), decoding the block produced by `Wire()`
succeeds and yields a Name equal to the original under `Equals`, and
re-encoding the decoded Name gives bytes identical to the first
encoding. -/
theorem c2_wire_roundtrip (n : Name) (h : ValidName n) :
    ∃ m, DecodeName (some (Name.WireOp n).2) = .ok m ∧
      Name.Equals m n = true ∧
      Tlv.Block.wireBytes (Name.WireOp m).2 =
        Tlv.Block.wireBytes (Name.WireOp n).2 := by
  obtain ⟨hcomps, hcoh⟩ := h
  cases hw : n.wire with
  | none =>
    have hb : (Name.WireOp n).2 = ⟨Tlv.Name, n.encodeBody⟩ := by
      simp [Name.WireOp, hw]
    have hparse : Tlv.Block.Parse ⟨Tlv.Name, n.encodeBody⟩ =
        .ok (n.components.map NameComponent.wireBlock) := by
      simp only [Tlv.Block.Parse]
      exact parseBlocksF_flatten n.components _ hcomps (by
        unfold Name.encodeBody
        omega)
    refine ⟨⟨n.components, some ⟨Tlv.Name, n.encodeBody⟩⟩, ?_,
      Equals_iff.mpr rfl, ?_⟩
    · rw [hb, DecodeName_eq rfl hparse,
        decodeComponents_map_wireBlock n.components hcomps]
    · rw [hb]
      simp [Name.WireOp]
  | some b =>
    simp only [wireCoherent, hw, Bool.and_eq_true, beq_iff_eq] at hcoh
    obtain ⟨htyp, hcoh2⟩ := hcoh
    cases hp : b.Parse with
    | error e =>
      rw [hp] at hcoh2
      simp at hcoh2
    | ok subs =>
      rw [hp] at hcoh2
      simp only [beq_iff_eq] at hcoh2
      have hb2 : (Name.WireOp n).2 = b := by simp [Name.WireOp, hw]
      refine ⟨⟨n.components, some b⟩, ?_, Equals_iff.mpr rfl, ?_⟩
      · rw [hb2, DecodeName_eq htyp hp, hcoh2]
      · rw [hb2]
        simp [Name.WireOp]

/-- Witness for C2 at the one-component name `/go`. -/
theorem c2_wire_roundtrip_witness :
    ∃ m, DecodeName
        (some (Name.WireOp ⟨[⟨8, [103, 111]⟩], none⟩).2) = .ok m ∧
      Name.Equals m ⟨[⟨8, [103, 111]⟩], none⟩ = true ∧
      Tlv.Block.wireBytes (Name.WireOp m).2 =
        Tlv.Block.wireBytes (Name.WireOp ⟨[⟨8, [103, 111]⟩], none⟩).2 :=
  c2_wire_roundtrip ⟨[⟨8, [103, 111]⟩], none⟩ (by decide)

/-- C3: evaluation of `Prefix` around its bounds.  On a one-component
name, `Prefix 2` runs the copy loop past the end of the component slice
and panics (`none`), although the function's own doc comment promises a
copy of the full name for `n ≥ size`; `Prefix 1` and a negative `n`
behave as documented (deep copies of the first components, fresh empty
wire cache). -/
theorem c3_prefix_beyond_size_panics :
    Name.PrefixOp ⟨[⟨Tlv.GenericNameComponent, [103, 111]⟩], none⟩ 2 =
      none ∧
    Name.PrefixOp ⟨[⟨Tlv.GenericNameComponent, [103, 111]⟩],
        some ⟨Tlv.Name, [8, 2, 103, 111]⟩⟩ 1 =
      some ⟨[⟨Tlv.GenericNameComponent, [103, 111]⟩], none⟩ ∧
    Name.PrefixOp ⟨[⟨Tlv.GenericNameComponent, [103, 111]⟩],
        some ⟨Tlv.Name, [8, 2, 103, 111]⟩⟩ (-1) =
      some ⟨[], none⟩ := by
  decide

/-- C4: evaluation of `DecodeNameComponent` on numeric components of
non-8-byte length.  A 4-byte Segment value panics inside
`binary.BigEndian.Uint64` (`crash`) instead of returning a decode error;
a 9-byte value is silently accepted with only its first 8 bytes read;
only an exactly-8-byte value round-trips as specified. -/
theorem c4_numeric_length_not_checked :
    DecodeNameComponent
        (some ⟨Tlv.SegmentNameComponent, [1, 2, 3, 4]⟩) = .crash ∧
    DecodeNameComponent
        (some ⟨Tlv.SegmentNameComponent, [0, 0, 0, 0, 0, 0, 0, 1, 99]⟩) =
      .ok ⟨Tlv.SegmentNameComponent, [0, 0, 0, 0, 0, 0, 0, 1]⟩ ∧
    DecodeNameComponent
        (some ⟨Tlv.SegmentNameComponent, [0, 0, 0, 0, 0, 0, 0, 170]⟩) =
      .ok ⟨Tlv.SegmentNameComponent, [0, 0, 0, 0, 0, 0, 0, 170]⟩ := by
  decide

/-- C6 counterexample: a Name decoded from the empty Name block has a
materialized wire cache; `Clear` on it is a no-op that keeps the cache,
so `HasWire` is still true immediately after this mutator, contrary to
the claim that every mutation (Clear included) leaves it false. -/
theorem c6_counterexample_clear_on_empty_decoded_name :
    DecodeName (some (⟨Tlv.Name, []⟩ : Tlv.Block)) =
      .ok ⟨[], some ⟨Tlv.Name, []⟩⟩ ∧
    Name.Clear ⟨[], some ⟨Tlv.Name, []⟩⟩ = ⟨[], some ⟨Tlv.Name, []⟩⟩ ∧
    Name.HasWire ⟨[], some ⟨Tlv.Name, []⟩⟩ = true := by
  decide

/-- C6 (amended): the wire cache state machine over effective mutations:
a new Name starts stale; `HasWire` is true right after any `Wire()`;
`Append` of a component, in-range `Set`, in-range `Erase` and `Clear` of
a nonempty name each leave it false; a freshly decoded Name starts
fresh. -/
theorem c6_wire_cache_state_machine (n : Name) (c : NameComponent)
    (i : Int) (b : Tlv.Block) :
    Name.HasWire NewName = false ∧
    Name.HasWire (Name.WireOp n).1 = true ∧
    (∀ m, Name.Append n (some c) = .ok m → Name.HasWire m = false) ∧
    (∀ m, Name.Set n i c = .ok m → Name.HasWire m = false) ∧
    (0 ≤ i → i < (n.components.length : Int) →
      Name.HasWire (Name.Erase n i) = false) ∧
    (n.components ≠ [] → Name.HasWire (Name.Clear n) = false) ∧
    (∀ m, DecodeName (some b) = .ok m → Name.HasWire m = true) := by
  refine ⟨rfl, ?_, ?_, ?_, ?_, ?_, ?_⟩
  · cases hw : n.wire with
    | some bb => simp [Name.WireOp, Name.HasWire, hw]
    | none => simp [Name.WireOp, Name.HasWire, hw]
  · intro m hm
    simp only [Name.Append] at hm
    cases hm
    rfl
  · intro m hm
    simp only [Name.Set] at hm
    split at hm
    · exact Except.noConfusion hm
    · cases hm
      rfl
  · intro h0 hlt
    simp only [Name.Erase]
    rw [if_neg (by omega)]
    rfl
  · intro hne
    simp only [Name.Clear]
    rw [if_pos (List.length_pos.mpr hne)]
    rfl
  · intro m hm
    obtain ⟨hw, -, -⟩ := DecodeName_ok_inv hm
    simp [Name.HasWire, hw]

/-- Witness for C6: appending a component to the empty name yields a name
with no wire. -/
theorem c6_wire_cache_witness :
    Name.HasWire ⟨[⟨8, [103]⟩], none⟩ = false := by
  have h := c6_wire_cache_state_machine NewName ⟨8, [103]⟩ 0 ⟨7, []⟩
  exact h.2.2.1 ⟨[⟨8, [103]⟩], none⟩ (by decide)

/-- C7: every successfully decoded Name retains the input block as its
materialized wire cache: `HasWire` is true right after decode and
`Wire()` before any mutation returns that very block, hence byte-wise
the decoded input. -/
theorem c7_decode_retains_wire (b : Tlv.Block) (m : Name)
    (h : DecodeName (some b) = .ok m) :
    Name.HasWire m = true ∧ (Name.WireOp m).2 = b ∧
    (Name.WireOp m).2.wireBytes = b.wireBytes := by
  obtain ⟨hw, -, -⟩ := DecodeName_ok_inv h
  have h2 : (Name.WireOp m).2 = b := by simp [Name.WireOp, hw]
  exact ⟨by simp [Name.HasWire, hw], h2, by rw [h2]⟩

/-- Witness for C7 at the decoded name `/go`. -/
theorem c7_decode_retains_wire_witness :
    Name.HasWire
        (⟨[⟨8, [103, 111]⟩], some ⟨7, [8, 2, 103, 111]⟩⟩ : Name) = true :=
  (c7_decode_retains_wire ⟨7, [8, 2, 103, 111]⟩
    ⟨[⟨8, [103, 111]⟩], some ⟨7, [8, 2, 103, 111]⟩⟩ (by decide)).1

/-- C8 counterexample: a 33-byte digest value is rejected by both digest
constructors with the `TooShort` error kind, not `TooLong` as the claim
requires for over-long values. -/
theorem c8_counterexample_long_digest_kind :
    NewImplicitSha256DigestComponent (List.replicate 33 0) =
      .error .TooShort ∧
    NewParametersSha256DigestComponent (List.replicate 33 0) =
      .error .TooShort ∧
    Err.TooShort ≠ Err.TooLong := by
  decide

/-- C8 (amended): for every value whose length is not exactly 32 bytes —
shorter or longer — both digest constructors return no component and the
`TooShort` error kind. -/
theorem c8_digest_length_error (v : List Nat) (h : v.length ≠ 32) :
    NewImplicitSha256DigestComponent v = .error .TooShort ∧
    NewParametersSha256DigestComponent v = .error .TooShort := by
  unfold NewImplicitSha256DigestComponent NewParametersSha256DigestComponent
  rw [if_pos h, if_pos h]
  exact ⟨rfl, rfl⟩

/-- Witness for C8 at a 31-byte value. -/
theorem c8_digest_length_error_witness :
    NewImplicitSha256DigestComponent (List.replicate 31 0) =
      .error .TooShort :=
  (c8_digest_length_error (List.replicate 31 0) (by decide)).1

/-- C9: the prefix laws — every name is a prefix of itself, the empty
name is a prefix of every name, and a prefix of equal size is equal. -/
theorem c9_prefix_laws (a b : Name) :
    Name.PrefixOf a (some a) = true ∧
    Name.PrefixOf NewName (some b) = true ∧
    (Name.PrefixOf a (some b) = true → a.Size = b.Size →
      Name.Equals a b = true) := by
  refine ⟨?_, ?_, ?_⟩
  · exact PrefixOf_some_iff.mpr
      ⟨le_refl _, (zip_all_matches_iff _ _ rfl).mpr rfl⟩
  · simp [Name.PrefixOf, NewName, Name.Size]
  · intro hp hs
    obtain ⟨hle, hall⟩ := PrefixOf_some_iff.mp hp
    exact Equals_iff.mpr ((zip_all_matches_iff _ _ hs).mp hall)

/-- Witness for C9: a one-component prefix of equal size is equal (the
wire caches may differ). -/
theorem c9_prefix_laws_witness :
    Name.Equals ⟨[⟨8, [1]⟩], none⟩
      ⟨[⟨8, [1]⟩], some ⟨7, [8, 1, 1]⟩⟩ = true :=
  (c9_prefix_laws ⟨[⟨8, [1]⟩], none⟩
    ⟨[⟨8, [1]⟩], some ⟨7, [8, 1, 1]⟩⟩).2.2 (by decide) (by decide)

/-- Model validation: the embedding reproduces the concrete vectors of
the Go test suite (`TestNameCreate`, `TestNameDecode`,
`TestNameDecodeUnknownComponent`, `TestNameEncode`, `TestNameCompare`):
decode failures on a malformed or mis-typed block, the decoded component
sequences, the `07 00` empty-name encoding, the `07 13 ...` re-encoding,
and the five comparison outcomes. -/
theorem go_test_vectors_check :
    DecodeName (some ⟨7, [8, 0]⟩) = .error .BufferTooShort ∧
    DecodeName (some ⟨8, [8, 2, 103, 111, 8, 3, 110, 100, 110]⟩) =
      .error .Unrecognized ∧
    DecodeName (some ⟨7, [8, 2, 103, 111, 8, 3, 110, 100, 110]⟩) =
      .ok ⟨[⟨8, [103, 111]⟩, ⟨8, [110, 100, 110]⟩],
        some ⟨7, [8, 2, 103, 111, 8, 3, 110, 100, 110]⟩⟩ ∧
    DecodeName (some ⟨7, [221, 2, 103, 111, 8, 3, 110, 100, 110]⟩) =
      .ok ⟨[⟨221, [103, 111]⟩, ⟨8, [110, 100, 110]⟩],
        some ⟨7, [221, 2, 103, 111, 8, 3, 110, 100, 110]⟩⟩ ∧
    Tlv.Block.wireBytes (Name.WireOp NewName).2 = [7, 0] ∧
    Tlv.Block.wireBytes (Name.WireOp ⟨[⟨8, [103, 111]⟩,
        ⟨8, [110, 100, 110]⟩, ⟨33, [0, 0, 0, 0, 0, 0, 0, 170]⟩],
        none⟩).2 =
      [7, 19, 8, 2, 103, 111, 8, 3, 110, 100, 110,
        33, 8, 0, 0, 0, 0, 0, 0, 0, 170] ∧
    Name.Compare ⟨[⟨8, [103, 111]⟩, ⟨8, [110, 100, 110]⟩,
        ⟨33, [0, 0, 0, 0, 0, 0, 0, 170]⟩], none⟩
      ⟨[⟨8, [103, 111]⟩, ⟨8, [110, 100, 110]⟩,
        ⟨33, [0, 0, 0, 0, 0, 0, 0, 170]⟩], none⟩ = 0 ∧
    Name.Compare ⟨[⟨8, [103, 111]⟩, ⟨8, [110, 100, 110]⟩], none⟩
      ⟨[⟨8, [103, 111]⟩, ⟨8, [110, 100, 110]⟩,
        ⟨33, [0, 0, 0, 0, 0, 0, 0, 170]⟩], none⟩ = -1 ∧
    Name.Compare ⟨[⟨8, [103, 111]⟩, ⟨8, [110, 100, 110]⟩], none⟩
      ⟨[⟨8, [103, 111]⟩, ⟨9, [110, 100, 110]⟩], none⟩ = -1 ∧
    Name.Compare ⟨[⟨8, [103, 111]⟩, ⟨9, [110, 100, 110]⟩], none⟩
      ⟨[⟨8, [103, 111]⟩, ⟨9, [110, 100, 110, 110]⟩], none⟩ = -1 ∧
    Name.Compare ⟨[⟨8, [103, 111]⟩, ⟨8, [110, 100, 110]⟩], none⟩
      ⟨[⟨8, [103, 111]⟩, ⟨8, [110, 100, 111]⟩], none⟩ = -1 := by
  decide

/-- C10: `DeepCopy` returns a name equal to the source under `Equals`,
and the copy never inherits the wire cache: its `HasWire` is false even
when the source's was true. -/
theorem c10_deepcopy_equals_without_wire (n : Name) :
    Name.Equals (Name.DeepCopy n) n = true ∧
    Name.HasWire (Name.DeepCopy n) = false :=
  ⟨Equals_iff.mpr rfl, rfl⟩

end GoNDN
